import Mathlib

/-!
Verification development for the minijson2 pull-based JSON tokenizer.

The C++ sources (`src/minijson2.cpp`, `include/minijson2/minijson2.hpp`) are
shallowly embedded below.  The input buffer is a `List Char`, the byte cursor a
`Nat`, and the explicit expectation stack a `List ExpectNext` whose head is the
top (the C++ `std::vector` back).  All parsing functions are pure state
transformers `Parser → Token × Parser`, mirroring the C++ member functions
which mutate `cursor_` and `expect_next_` and return a `Token`.
`size_t` underflow (relevant in `get_context`) is modelled explicitly with
`(2 ^ 64 + a - b) % 2 ^ 64`, and `std::string_view::npos` with `2 ^ 64 - 1`.
C++ `assert`s are compiled out in release builds and are modelled as no-ops;
out-of-range reads that the code's control flow never performs are modelled
with clamping (`List.getD`, `List.take`), matching `std::string_view::substr`.
-/

namespace Minijson2

/-- Token kinds, from `Token::Type` in the header (same order). -/
inductive TokenType where
  | Null
  | Bool
  | UInt
  | Int
  | Float
  | String
  | Array
  | Object
  | EndArray
  | EndObject
  | Eof
  | Error
deriving DecidableEq, Repr

/-- A token: either a regular token with a kind tag and a byte span of the
input (we record both the span's characters and its start offset; the C++
stores the equivalent pointer/length pair), or an error token carrying the
byte offset of the fault and a static message. -/
inductive Token where
  | tok (ty : TokenType) (str : List Char) (start : Nat)
  | err (location : Nat) (message : String)
deriving DecidableEq, Repr

/-- `Token::type()`: error tokens have `type_ = Type::Error`. -/
def Token.type : Token → TokenType
  | .tok ty _ _ => ty
  | .err _ _ => TokenType.Error

/-- Whether a token is an error token. -/
def Token.isErr : Token → Bool
  | .tok _ _ _ => false
  | .err _ _ => true

/-- `Parser::ExpectNext` from the header. -/
inductive ExpectNext where
  | Error
  | Value
  | ObjectKey
  | ObjectValue
  | ArrayValue
deriving DecidableEq, Repr

/-- Tokenizer state: the borrowed input, the byte cursor `cursor_`, and the
expectation stack `expect_next_` (head of the list = back of the vector). -/
structure Parser where
  input : List Char
  cursor : Nat
  stack : List ExpectNext
deriving DecidableEq, Repr

/-- The `Parser(std::string&)` constructor: cursor 0, stack `[Value]`. -/
def Parser.init (input : List Char) : Parser :=
  { input := input, cursor := 0, stack := [ExpectNext.Value] }

/-- `std::string_view::substr(pos, count)` (count clamped to the remainder). -/
def substr (s : List Char) (pos count : Nat) : List Char :=
  (s.drop pos).take count

/-- `is_whitespace` from `minijson2.cpp` (the duplicated `'\t'` test is kept
verbatim from the source). -/
def is_whitespace (ch : Char) : Bool :=
  ch = ' ' || ch = '\t' || ch = '\n' || ch = '\t'

/-- Scanning worker for `find_first_not_of`, structurally recursive on the
remaining suffix of the string (so that it computes by kernel reduction). -/
def find_first_not_of_go (chars : List Char) : List Char → Nat → Option Nat
  | [], _ => none
  | c :: rest, pos =>
    if chars.contains c then find_first_not_of_go chars rest (pos + 1)
    else some pos

/-- `std::string_view::find_first_not_of(chars, pos)`: smallest index
`i ≥ pos` whose character is not in `chars` (`none` plays `npos`). -/
def find_first_not_of (s chars : List Char) (pos : Nat) : Option Nat :=
  find_first_not_of_go chars (s.drop pos) pos

/-- Scanning worker for `find_char`, structurally recursive on the remaining
suffix. -/
def find_char_go (ch : Char) : List Char → Nat → Option Nat
  | [], _ => none
  | c :: rest, pos =>
    if c = ch then some pos
    else find_char_go ch rest (pos + 1)

/-- `std::string_view::find(ch, pos)`: smallest index `i ≥ pos` holding `ch`
(`none` plays `npos`). -/
def find_char (s : List Char) (ch : Char) (pos : Nat) : Option Nat :=
  find_char_go ch (s.drop pos) pos

/-- Scanning worker for `skip_whitespace`, structurally recursive on the
remaining suffix. -/
def skip_whitespace_go : List Char → Nat → Nat
  | [], cursor => cursor
  | c :: rest, cursor =>
    if is_whitespace c then skip_whitespace_go rest (cursor + 1)
    else cursor

/-- `Parser::skip_whitespace`, returning the advanced cursor. -/
def skip_whitespace (s : List Char) (cursor : Nat) : Nat :=
  skip_whitespace_go (s.drop cursor) cursor

/-- The bareword character set from `Parser::on_value` (note: the source
string really does omit `k`). -/
def value_chars : List Char :=
  "0123456789abcdefghijlmnopqrstuvwxyzABCDEFGHIJKLMNOPQRSTUVWXYZ.+-".data

/-- The number character set from `Parser::on_value`. -/
def number_chars : List Char := "0123456789eE.-+".data

/-- The integer character set from `Parser::number_token`. -/
def int_chars : List Char := "0123456789-".data

/-- The hex digit set from `Parser::string_token`. -/
def hex_chars : List Char := "0123456789abcdefABCDEF".data

/-- `Parser::error_token`: build an error token at the current cursor and
push `ExpectNext::Error` so that errors are returned forever. -/
def error_token (p : Parser) (message : String) : Token × Parser :=
  (Token.err p.cursor message, { p with stack := ExpectNext.Error :: p.stack })

/-- Worker for the escape-validation `while` loop of `Parser::string_token`.
The fuel only bounds the iteration count (the cursor strictly increases each
iteration, so `endPos - cursor` iterations suffice; when the fuel runs out
the guard `cursor < endPos` is already false, and the same result is
returned). -/
def validate_escapes_go (s : List Char) (endPos : Nat) :
    Nat → Nat → Except (Nat × String) Nat
  | 0, cursor => Except.ok cursor
  | fuel + 1, cursor =>
    if cursor < endPos then
      if s.getD cursor ' ' = '\\' then
        if s.length ≤ cursor + 1 then
          Except.error (cursor, "Incomplete escape sequence")
        else
          let c := s.getD (cursor + 1) ' '
          if c = 'u' then
            if s.length ≤ cursor + 2 + 4 then
              Except.error (cursor + 2, "Incomplete unicode escape sequence")
            else
              match find_first_not_of (substr s (cursor + 2) 4) hex_chars 0 with
              | some non_hex =>
                  Except.error (cursor + 2 + non_hex, "Incomplete unicode escape sequence")
              | none => validate_escapes_go s endPos fuel (cursor + 6)
          else if c = '"' ∨ c = '\\' ∨ c = '/' ∨ c = 'b' ∨ c = 'f' ∨ c = 'n' ∨
              c = 'r' ∨ c = 't' then
            validate_escapes_go s endPos fuel (cursor + 2)
          else
            Except.error (cursor + 1, "Invalid escape sequence")
      else validate_escapes_go s endPos fuel (cursor + 1)
    else Except.ok cursor

/-- The escape-validation `while` loop of `Parser::string_token` (the loop
between finding the closing quote and returning the token).  Returns the
final cursor on success, or the error cursor and message. -/
def validate_escapes (s : List Char) (endPos cursor : Nat) :
    Except (Nat × String) Nat :=
  validate_escapes_go s endPos (endPos - cursor) cursor

/-- Scanning worker for `find_string_end`, structurally recursive on the
remaining suffix. -/
def find_string_end_go (s : List Char) : List Char → Nat → Option Nat
  | [], _ => none
  | c :: rest, pos =>
    if c = '"' ∧ ¬(s.getD (pos - 1) ' ' = '\\') then some pos
    else find_string_end_go s rest (pos + 1)

/-- The closing-quote scan of `Parser::string_token`: first `i ≥ pos` with
`s[i] = '"'` and `s[i-1] ≠ '\\'`. -/
def find_string_end (s : List Char) (pos : Nat) : Option Nat :=
  find_string_end_go s (s.drop pos) pos

/-- `Parser::string_token`. -/
def string_token (p : Parser) : Token × Parser :=
  let p1 : Parser := { p with cursor := skip_whitespace p.input p.cursor }
  let p2 : Parser := { p1 with cursor := p1.cursor + 1 }
  match find_string_end p2.input p2.cursor with
  | none => error_token { p2 with cursor := p2.cursor - 1 } "Unterminated string"
  | some endPos =>
    match validate_escapes p2.input endPos p2.cursor with
    | Except.error (loc, msg) => error_token { p2 with cursor := loc } msg
    | Except.ok c =>
        (Token.tok TokenType.String (substr p2.input p2.cursor (endPos - p2.cursor)) p2.cursor,
         { p2 with cursor := c + 1 })

/-- `Parser::number_token`. -/
def number_token (p : Parser) (value : List Char) : Token × Parser :=
  let start := p.cursor
  let p1 : Parser := { p with cursor := p.cursor + value.length }
  if (find_first_not_of value int_chars 0).isSome then
    (Token.tok TokenType.Float value start, p1)
  else if value.headD ' ' = '-' then
    (Token.tok TokenType.Int value start, p1)
  else
    (Token.tok TokenType.UInt value start, p1)

/-- `Parser::on_value`. -/
def on_value (p : Parser) : Token × Parser :=
  let p1 : Parser := { p with cursor := skip_whitespace p.input p.cursor }
  if p1.input.length ≤ p1.cursor then error_token p1 "Expected value"
  else if p1.input.getD p1.cursor ' ' = '"' then string_token p1
  else if p1.input.getD p1.cursor ' ' = '{' then
    (Token.tok TokenType.Object (substr p1.input p1.cursor 1) p1.cursor,
     { p1 with cursor := p1.cursor + 1, stack := ExpectNext.ObjectKey :: p1.stack })
  else if p1.input.getD p1.cursor ' ' = '[' then
    (Token.tok TokenType.Array (substr p1.input p1.cursor 1) p1.cursor,
     { p1 with cursor := p1.cursor + 1, stack := ExpectNext.ArrayValue :: p1.stack })
  else
    let value_end := match find_first_not_of p1.input value_chars p1.cursor with
      | some i => i
      | none => p1.input.length
    let value := substr p1.input p1.cursor (value_end - p1.cursor)
    if value = [] then error_token p1 "Value must not be empty"
    else if value = "null".data then
      (Token.tok TokenType.Null value p1.cursor, { p1 with cursor := p1.cursor + value.length })
    else if value = "true".data ∨ value = "false".data then
      (Token.tok TokenType.Bool value p1.cursor, { p1 with cursor := p1.cursor + value.length })
    else
      match find_first_not_of value number_chars 0 with
      | some non_num_pos =>
          error_token { p1 with cursor := p1.cursor + non_num_pos }
            "Expected string, array, object, null, boolean or number"
      | none => number_token p1 value

/-- `Parser::on_object_key`. -/
def on_object_key (p : Parser) : Token × Parser :=
  let p1 : Parser := { p with cursor := skip_whitespace p.input p.cursor }
  if p1.input.length ≤ p1.cursor then error_token p1 "Unterminated object"
  else if p1.input.getD p1.cursor ' ' = '}' then
    (Token.tok TokenType.EndObject (substr p1.input p1.cursor 1) p1.cursor,
     { p1 with cursor := p1.cursor + 1 })
  else
    let p2 : Parser :=
      if p1.input.getD p1.cursor ' ' = ',' then { p1 with cursor := p1.cursor + 1 } else p1
    string_token { p2 with stack := ExpectNext.ObjectValue :: p2.stack }

/-- `Parser::on_object_value`. -/
def on_object_value (p : Parser) : Token × Parser :=
  let p1 : Parser := { p with cursor := skip_whitespace p.input p.cursor }
  if p1.input.length ≤ p1.cursor then error_token p1 "Unterminated object"
  else if ¬(p1.input.getD p1.cursor ' ' = ':') then
    error_token p1 "Expected ':' after object key"
  else
    on_value { p1 with cursor := p1.cursor + 1, stack := ExpectNext.ObjectKey :: p1.stack }

/-- `Parser::on_array_value`. -/
def on_array_value (p : Parser) : Token × Parser :=
  let p1 : Parser := { p with cursor := skip_whitespace p.input p.cursor }
  if p1.input.length ≤ p1.cursor then error_token p1 "Unterminated array"
  else if p1.input.getD p1.cursor ' ' = ']' then
    (Token.tok TokenType.EndArray (substr p1.input p1.cursor 1) p1.cursor,
     { p1 with cursor := p1.cursor + 1 })
  else
    let p2 : Parser :=
      if p1.input.getD p1.cursor ' ' = ',' then { p1 with cursor := p1.cursor + 1 } else p1
    on_value { p2 with stack := ExpectNext.ArrayValue :: p2.stack }

/-- `Parser::next`. -/
def next (p : Parser) : Token × Parser :=
  match p.stack with
  | [] =>
      (Token.tok TokenType.Eof (substr p.input p.cursor (p.input.length - p.cursor)) p.cursor, p)
  | e :: rest =>
    let p1 : Parser := { p with stack := rest }
    match e with
    | ExpectNext.Error => error_token p1 "Abort after previous error"
    | ExpectNext.Value => on_value p1
    | ExpectNext.ObjectKey => on_object_key p1
    | ExpectNext.ObjectValue => on_object_value p1
    | ExpectNext.ArrayValue => on_array_value p1

/-- Iterate `next` `n` times, collecting the returned tokens. -/
def run (p : Parser) : Nat → List Token × Parser
  | 0 => ([], p)
  | n + 1 =>
    let r1 := next p
    let r2 := run r1.2 n
    (r1.1 :: r2.1, r2.2)

/-- `parse_unicode_escape_hex`: `std::from_chars` base 16 over four hex
digits (the asserted precondition is that all characters are hex digits). -/
def hex_digit_value (c : Char) : Nat :=
  if '0' ≤ c ∧ c ≤ '9' then c.toNat - '0'.toNat
  else if 'a' ≤ c ∧ c ≤ 'f' then c.toNat - 'a'.toNat + 10
  else if 'A' ≤ c ∧ c ≤ 'F' then c.toNat - 'A'.toNat + 10
  else 0

/-- Hex string to value, as `parse_unicode_escape_hex` computes it. -/
def parse_unicode_escape_hex (s : List Char) : Nat :=
  s.foldl (fun acc c => acc * 16 + hex_digit_value c) 0

/-- `encode_utf8` from `minijson2.cpp`: the (1-, 2- or 3-byte) UTF-8
encoding of a 16-bit code point, as a list of byte values. -/
def encode_utf8 (cp : Nat) : List Nat :=
  if cp ≤ 0x7F then [cp]
  else if cp ≤ 0x7FF then
    [0xC0 ||| ((cp >>> 6) &&& 0x1F), 0x80 ||| (cp &&& 0x3F)]
  else
    [0xE0 ||| ((cp >>> 12) &&& 0x0F), 0x80 ||| ((cp >>> 6) &&& 0x3F),
     0x80 ||| (cp &&& 0x3F)]

/-- In-place write of a byte list into a buffer starting at `pos`
(`dst += encode_utf8(str + dst, val)` in the source). -/
def write_bytes (buf : List Char) (pos : Nat) : List Char → List Char
  | [] => buf
  | b :: bs => write_bytes (buf.set pos b) (pos + 1) bs

/-- The main `for` loop of `escape_string(char*, size_t)`.  `src`/`dst` are
the read/write cursors; the fuel is an upper bound on the iteration count
(`src` strictly increases each iteration, so `len` iterations suffice). -/
def escape_loop (len : Nat) : Nat → List Char → Nat → Nat → Nat × List Char
  | 0, buf, _, dst => (dst, buf)
  | fuel + 1, buf, src, dst =>
    if src < len then
      if buf.getD src ' ' = '\\' then
        let c := buf.getD (src + 1) ' '
        if c = '"' then escape_loop len fuel (buf.set dst '"') (src + 2) (dst + 1)
        else if c = '\\' then escape_loop len fuel (buf.set dst '\\') (src + 2) (dst + 1)
        else if c = '/' then escape_loop len fuel (buf.set dst '/') (src + 2) (dst + 1)
        else if c = 'b' then escape_loop len fuel (buf.set dst (Char.ofNat 8)) (src + 2) (dst + 1)
        else if c = 'f' then escape_loop len fuel (buf.set dst (Char.ofNat 12)) (src + 2) (dst + 1)
        else if c = 'n' then escape_loop len fuel (buf.set dst '\n') (src + 2) (dst + 1)
        else if c = 'r' then escape_loop len fuel (buf.set dst '\r') (src + 2) (dst + 1)
        else if c = 't' then escape_loop len fuel (buf.set dst '\t') (src + 2) (dst + 1)
        else if c = 'u' then
          let val := parse_unicode_escape_hex (substr buf (src + 2) 4)
          let bytes := (encode_utf8 val).map Char.ofNat
          escape_loop len fuel (write_bytes buf dst bytes) (src + 6) (dst + bytes.length)
        else escape_loop len fuel buf (src + 2) dst
      else escape_loop len fuel (buf.set dst (buf.getD src ' ')) (src + 1) (dst + 1)
    else (dst, buf)

/-- Worker for the trailing zero-fill loop of `escape_string`; runs exactly
`len - i` iterations of `str[i] = 0`. -/
def fill_zeros_go : Nat → Nat → List Char → List Char
  | 0, _, buf => buf
  | fuel + 1, i, buf => fill_zeros_go fuel (i + 1) (buf.set i (Char.ofNat 0))

/-- The trailing zero-fill loop of `escape_string` (`str[i] = '\0'` for
`i ∈ [dst, len)`). -/
def fill_zeros (len i : Nat) (buf : List Char) : List Char :=
  fill_zeros_go (len - i) i buf

/-- `escape_string(char*, size_t)`: in-place escape decoding over the whole
buffer; returns the decoded length and the final buffer contents. -/
def escape_string (buf : List Char) : Nat × List Char :=
  let r := escape_loop buf.length buf.length buf 0 0
  (r.1, fill_zeros buf.length r.1 r.2)

/-- `Context` from the header. -/
structure Context where
  line_number : Nat
  column : Nat
  line : List Char
deriving DecidableEq, Repr

/-- `std::string_view::npos` (a 64-bit `size_t`). -/
def NPOS : Nat := 2 ^ 64 - 1

/-- `str.find('\n', i)` with the `npos` sentinel, as `get_context` uses it. -/
def find_nl (s : List Char) (pos : Nat) : Nat :=
  match find_char s '\n' pos with
  | some i => i
  | none => NPOS

/-- The scanning `for` loop of `get_context`; returns
`(line_number, line_start, line_end)`.  The fuel bounds the iteration count
(the loop variable strictly increases, so `s.length + 1` suffices). -/
def get_context_loop (s : List Char) (cursor : Nat) :
    Nat → Nat → Nat → Nat → Nat → Nat × Nat × Nat
  | 0, _, line_start, line_number, line_end => (line_number, line_start, line_end)
  | fuel + 1, i, line_start, line_number, line_end =>
    if i < s.length then
      let nl := find_nl s i
      if cursor < nl then (line_number, line_start, nl)
      else get_context_loop s cursor fuel (nl + 1) (nl + 1) (line_number + 1) line_end
    else (line_number, line_start, line_end)

/-- `get_context` from `minijson2.cpp`.  The column is the `size_t`
difference `cursor - line_start` (wrapping modulo `2 ^ 64`). -/
def get_context (s : List Char) (cursor : Nat) : Context :=
  let r := get_context_loop s cursor (s.length + 1) 0 0 1 s.length
  { line_number := r.1,
    column := (2 ^ 64 + cursor - r.2.1) % 2 ^ 64,
    line := substr s r.2.1 (r.2.2 - r.2.1) }

/-- Container kinds, for tracking Object/Array nesting of the token stream. -/
inductive ContainerKind where
  | obj
  | arr
deriving DecidableEq, Repr

/-- The container (if any) whose processing a pending expectation-stack entry
belongs to: an open object keeps exactly one `ObjectKey`/`ObjectValue` entry
on the stack, an open array exactly one `ArrayValue` entry. -/
def ExpectNext.containerKind : ExpectNext → Option ContainerKind
  | ExpectNext.ObjectKey => some ContainerKind.obj
  | ExpectNext.ObjectValue => some ContainerKind.obj
  | ExpectNext.ArrayValue => some ContainerKind.arr
  | ExpectNext.Value => none
  | ExpectNext.Error => none

/-- The list of currently open containers implied by an expectation stack
(innermost first). -/
def openContainers (stack : List ExpectNext) : List ContainerKind :=
  stack.filterMap ExpectNext.containerKind

/-- One token's effect on the stack of currently open containers:
`Object`/`Array` push, `EndObject`/`EndArray` must match and pop the
innermost open container (`none` on mismatch or on an underflowing close),
`Error` fails, all other tokens leave the nesting unchanged. -/
def tokDepthStep (stk : List ContainerKind) : Token → Option (List ContainerKind)
  | Token.tok TokenType.Object _ _ => some (ContainerKind.obj :: stk)
  | Token.tok TokenType.Array _ _ => some (ContainerKind.arr :: stk)
  | Token.tok TokenType.EndObject _ _ =>
      match stk with
      | ContainerKind.obj :: rest => some rest
      | _ => none
  | Token.tok TokenType.EndArray _ _ =>
      match stk with
      | ContainerKind.arr :: rest => some rest
      | _ => none
  | Token.err _ _ => none
  | Token.tok _ _ _ => some stk

/-- Fold `tokDepthStep` over a token list.  `tokDepthRun [] toks = some []`
says the token list is a balanced, kind-matched, error-free bracket
sequence; `(tokDepthRun [] toks).isSome` says no prefix closes more
containers than are open. -/
def tokDepthRun : List ContainerKind → List Token → Option (List ContainerKind)
  | stk, [] => some stk
  | stk, t :: ts =>
    match tokDepthStep stk t with
    | some stk2 => tokDepthRun stk2 ts
    | none => none

/-- The sticky-error condition: `ExpectNext::Error` on top of the stack. -/
def errorTop (p : Parser) : Prop :=
  p.stack.head? = some ExpectNext.Error

/-- One parsing step is depth-coherent: either it latched the error state,
or the emitted token transforms the open-container stack of the expectation
stack `before` into that of the resulting state. -/
def stepOK (before : List ExpectNext) (r : Token × Parser) : Prop :=
  errorTop r.2 ∨ tokDepthStep (openContainers before) r.1 = some (openContainers r.2.stack)

/-- The ten decimal digit characters (spec-side vocabulary for claim C3). -/
def digit_chars : List Char := "0123456789".data

/-- Modelled from the spec (claim C8's notion of "the line containing the
offset"): number of newline bytes strictly before `k`. -/
def spec_newlines_before (s : List Char) (k : Nat) : Nat :=
  ((s.take k).filter (fun c => c = '\n')).length

/-- Modelled from the spec: the 0-based column of `c`, i.e. the number of
characters between the last newline before `c` and `c` itself. -/
def spec_column (s : List Char) (c : Nat) : Nat :=
  ((s.take c).reverse.takeWhile (fun ch => ¬(ch = '\n'))).length

/-- Modelled from the spec: the start offset of the line containing `c`. -/
def spec_line_start (s : List Char) (c : Nat) : Nat :=
  c - spec_column s c

/-- Modelled from the spec: the text of the line containing `c`, excluding
its terminating newline. -/
def spec_line_text (s : List Char) (c : Nat) : List Char :=
  (s.drop (spec_line_start s c)).takeWhile (fun ch => ¬(ch = '\n'))

/-- The document `[1,2,3]` of claim C5. -/
def doc_array : List Char := ['[', '1', ',', '2', ',', '3', ']']

/-- The document `\x7b"a": \x7d` (an object with key "a" and a missing
value) of claim C4. -/
def doc_object_missing_value : List Char := ['{', '"', 'a', '"', ':', ' ', '}']

/-- The 4-byte document `"\\"` (a string literal whose content is one
escaped backslash) of claim C9. -/
def doc_escaped_backslash : List Char := ['"', '\\', '\\', '"']

lemma error_token_snd_stack (p : Parser) (msg : String) :
    (error_token p msg).2.stack = ExpectNext.Error :: p.stack := rfl

lemma errorTop_error_token (p : Parser) (msg : String) : errorTop (error_token p msg).2 := by
  simp [errorTop, error_token]

/-- With the sticky `Error` entry on top, `next` pops it, re-pushes it, and
returns the fixed error token; the state is unchanged. -/
lemma next_of_errorTop (p : Parser) (h : errorTop p) :
    next p = (Token.err p.cursor "Abort after previous error", p) := by
  cases p with
  | mk input cursor stack =>
    cases stack with
    | nil => simp [errorTop] at h
    | cons e rest =>
      simp only [errorTop, List.head?, Option.some.injEq] at h
      cases e <;> simp_all [next, error_token]

lemma run_of_errorTop (p : Parser) (h : errorTop p) (n : Nat) :
    run p n = (List.replicate n (Token.err p.cursor "Abort after previous error"), p) := by
  induction n with
  | zero => simp [run]
  | succ n ih => simp [run, next_of_errorTop p h, ih, List.replicate_succ]

/-- With an empty expectation stack, `next` returns an `Eof` token spanning
the remaining input and leaves the state unchanged. -/
lemma next_of_empty_stack (p : Parser) (h : p.stack = []) :
    next p =
      (Token.tok TokenType.Eof (substr p.input p.cursor (p.input.length - p.cursor)) p.cursor,
       p) := by
  cases p with
  | mk input cursor stack => subst h; simp [next]

lemma run_of_empty_stack (p : Parser) (h : p.stack = []) (n : Nat) :
    run p n =
      (List.replicate n
        (Token.tok TokenType.Eof (substr p.input p.cursor (p.input.length - p.cursor)) p.cursor),
       p) := by
  induction n with
  | zero => simp [run]
  | succ n ih => simp [run, next_of_empty_stack p h, ih, List.replicate_succ]

lemma run_add (p : Parser) (m k : Nat) :
    run p (m + k) = ((run p m).1 ++ (run (run p m).2 k).1, (run (run p m).2 k).2) := by
  induction m generalizing p with
  | zero => simp [run]
  | succ m ih =>
    have hmk : m + 1 + k = (m + k) + 1 := by omega
    rw [hmk]
    simp [run, ih]

lemma tokDepthRun_append (stk : List ContainerKind) (xs ys : List Token) :
    tokDepthRun stk (xs ++ ys) =
      Option.bind (tokDepthRun stk xs) (fun s => tokDepthRun s ys) := by
  induction xs generalizing stk with
  | nil => simp [tokDepthRun]
  | cons t ts ih =>
    simp only [List.cons_append, tokDepthRun]
    cases tokDepthStep stk t with
    | none => simp
    | some stk2 => simp [ih]

@[simp] lemma openContainers_nil : openContainers [] = [] := rfl

@[simp] lemma openContainers_cons_Error (st : List ExpectNext) :
    openContainers (ExpectNext.Error :: st) = openContainers st := rfl

@[simp] lemma openContainers_cons_Value (st : List ExpectNext) :
    openContainers (ExpectNext.Value :: st) = openContainers st := rfl

@[simp] lemma openContainers_cons_ObjectKey (st : List ExpectNext) :
    openContainers (ExpectNext.ObjectKey :: st) = ContainerKind.obj :: openContainers st := rfl

@[simp] lemma openContainers_cons_ObjectValue (st : List ExpectNext) :
    openContainers (ExpectNext.ObjectValue :: st) = ContainerKind.obj :: openContainers st := rfl

@[simp] lemma openContainers_cons_ArrayValue (st : List ExpectNext) :
    openContainers (ExpectNext.ArrayValue :: st) = ContainerKind.arr :: openContainers st := rfl

lemma number_token_stepOK (p : Parser) (value : List Char) :
    stepOK p.stack (number_token p value) := by
  right
  simp only [number_token]
  split_ifs <;> simp [tokDepthStep]

lemma string_token_stepOK (p : Parser) : stepOK p.stack (string_token p) := by
  simp only [stepOK, string_token]
  split
  · exact Or.inl (errorTop_error_token _ _)
  · split
    · exact Or.inl (errorTop_error_token _ _)
    · exact Or.inr (by simp [tokDepthStep])

lemma on_value_stepOK (p : Parser) : stepOK p.stack (on_value p) := by
  simp only [stepOK, on_value]
  split_ifs
  · exact Or.inl (errorTop_error_token _ _)
  · exact string_token_stepOK _
  · exact Or.inr (by simp [tokDepthStep])
  · exact Or.inr (by simp [tokDepthStep])
  · exact Or.inl (errorTop_error_token _ _)
  · exact Or.inr (by simp [tokDepthStep])
  · exact Or.inr (by simp [tokDepthStep])
  · split
    · exact Or.inl (errorTop_error_token _ _)
    · exact number_token_stepOK _ _

lemma on_object_key_stepOK (p : Parser) :
    stepOK (ExpectNext.ObjectKey :: p.stack) (on_object_key p) := by
  simp only [stepOK, on_object_key]
  split_ifs
  · exact Or.inl (errorTop_error_token _ _)
  · exact Or.inr (by simp [tokDepthStep])
  · have hs := string_token_stepOK
      (Parser.mk p.input (skip_whitespace p.input p.cursor + 1)
        (ExpectNext.ObjectValue :: p.stack))
    unfold stepOK at hs
    simpa using hs
  · have hs := string_token_stepOK
      (Parser.mk p.input (skip_whitespace p.input p.cursor)
        (ExpectNext.ObjectValue :: p.stack))
    unfold stepOK at hs
    simpa using hs

lemma on_object_value_stepOK (p : Parser) :
    stepOK (ExpectNext.ObjectValue :: p.stack) (on_object_value p) := by
  simp only [stepOK, on_object_value]
  split_ifs
  · exact Or.inl (errorTop_error_token _ _)
  · have hs := on_value_stepOK
      (Parser.mk p.input (skip_whitespace p.input p.cursor + 1)
        (ExpectNext.ObjectKey :: p.stack))
    unfold stepOK at hs
    simpa using hs
  · exact Or.inl (errorTop_error_token _ _)

lemma on_array_value_stepOK (p : Parser) :
    stepOK (ExpectNext.ArrayValue :: p.stack) (on_array_value p) := by
  simp only [stepOK, on_array_value]
  split_ifs
  · exact Or.inl (errorTop_error_token _ _)
  · exact Or.inr (by simp [tokDepthStep])
  · have hs := on_value_stepOK
      (Parser.mk p.input (skip_whitespace p.input p.cursor + 1)
        (ExpectNext.ArrayValue :: p.stack))
    unfold stepOK at hs
    simpa using hs
  · have hs := on_value_stepOK
      (Parser.mk p.input (skip_whitespace p.input p.cursor)
        (ExpectNext.ArrayValue :: p.stack))
    unfold stepOK at hs
    simpa using hs

/-- Every call to `next` is depth-coherent. -/
lemma next_stepOK (p : Parser) : stepOK p.stack (next p) := by
  cases hp : p.stack with
  | nil =>
    right
    cases p with
    | mk input cursor stack => subst hp; simp [next, tokDepthStep]
  | cons e rest =>
    cases p with
    | mk input cursor stack =>
      subst hp
      cases e with
      | Error =>
        exact Or.inl (errorTop_error_token _ _)
      | Value =>
        have hs := on_value_stepOK (Parser.mk input cursor rest)
        unfold stepOK at hs ⊢
        simpa [next] using hs
      | ObjectKey =>
        have hs := on_object_key_stepOK (Parser.mk input cursor rest)
        unfold stepOK at hs ⊢
        simpa [next] using hs
      | ObjectValue =>
        have hs := on_object_value_stepOK (Parser.mk input cursor rest)
        unfold stepOK at hs ⊢
        simpa [next] using hs
      | ArrayValue =>
        have hs := on_array_value_stepOK (Parser.mk input cursor rest)
        unfold stepOK at hs ⊢
        simpa [next] using hs

/-- A step that returns an error token always latches the sticky error
state (every error path goes through `error_token`). -/
lemma errorTop_of_next_err (p : Parser) (h : (next p).1.isErr = true) :
    errorTop (next p).2 := by
  rcases next_stepOK p with he | hok
  · exact he
  · exfalso
    cases hn : (next p).1 with
    | tok ty str start => rw [hn] at h; simp [Token.isErr] at h
    | err loc msg => rw [hn] at hok; simp [tokDepthStep] at hok

/-- Core invariant: if a run ends with an empty expectation stack, the
emitted tokens rebalance the open containers down to none. -/
lemma run_balanced (n : Nat) : ∀ p : Parser, (run p n).2.stack = [] →
    tokDepthRun (openContainers p.stack) (run p n).1 = some [] := by
  induction n with
  | zero =>
    intro p h
    simp only [run] at h ⊢
    simp [tokDepthRun, h]
  | succ n ih =>
    intro p h
    simp only [run] at h ⊢
    rcases next_stepOK p with herr | hok
    · exfalso
      have hrun := run_of_errorTop (next p).2 herr n
      rw [hrun] at h
      rw [errorTop, h] at herr
      simp at herr
    · simp only [tokDepthRun, hok]
      exact ih (next p).2 h

/-- Claim C1: for every document whose parse run reaches the empty
expectation stack (equivalently, reaches the `Eof` token — the spec's
guarantee for every syntactically well-formed document; a run that errors
never empties the stack), the emitted token sequence is depth-first
balanced: folding the tokens' nesting effects over an empty container
stack succeeds, with every `EndArray`/`EndObject` closing the innermost
open `Array`/`Object`, and ends with exactly zero open containers; and on
every prefix of the stream the fold is defined, i.e. the implied nesting
depth never goes negative. -/
theorem claim_C1_token_stream_balanced (doc : List Char) (n : Nat)
    (h : (run (Parser.init doc) n).2.stack = []) :
    tokDepthRun [] (run (Parser.init doc) n).1 = some [] ∧
      ∀ m, m ≤ n → (tokDepthRun [] (run (Parser.init doc) m).1).isSome = true := by
  have hmain := run_balanced n (Parser.init doc) h
  have hinit : openContainers (Parser.init doc).stack = [] := rfl
  rw [hinit] at hmain
  refine ⟨hmain, ?_⟩
  intro m hm
  obtain ⟨k, rfl⟩ : ∃ k, n = m + k := ⟨n - m, by omega⟩
  rw [run_add (Parser.init doc) m k] at hmain
  simp only [] at hmain
  rw [tokDepthRun_append] at hmain
  cases hpre : tokDepthRun [] (run (Parser.init doc) m).1 with
  | none => rw [hpre] at hmain; simp at hmain
  | some stk => simp

/-- Witness for claim C1's theorem, at the document `[1,2,3]` and 6 steps
(the full token stream `Array UInt UInt UInt EndArray Eof`), with the
prefix clause instantiated at 3 steps. -/
theorem claim_C1_witness :
    (run (Parser.init doc_array) 6).2.stack = [] ∧
      tokDepthRun [] (run (Parser.init doc_array) 6).1 = some [] ∧
      (tokDepthRun [] (run (Parser.init doc_array) 3).1).isSome = true :=
  ⟨by decide, (claim_C1_token_stream_balanced doc_array 6 (by decide)).1,
    (claim_C1_token_stream_balanced doc_array 6 (by decide)).2 3 (by decide)⟩

/-- Claim C2: once a call to `next` has returned an error token, every
subsequent call on the resulting parser returns the error token
"Abort after previous error", indefinitely, and never a non-error token
(the run of any length `n` is exactly `n` copies of that error token). -/
theorem claim_C2_sticky_error (p : Parser) (h : (next p).1.isErr = true) (n : Nat) :
    (run (next p).2 n).1 =
      List.replicate n (Token.err (next p).2.cursor "Abort after previous error") := by
  have he := errorTop_of_next_err p h
  rw [run_of_errorTop (next p).2 he n]

/-- Witness for claim C2's theorem: the empty document errors immediately
("Expected value"); three further calls all return the abort error token. -/
theorem claim_C2_witness :
    (next (Parser.init [])).1.isErr = true ∧
      (run (next (Parser.init [])).2 3).1 =
        List.replicate 3
          (Token.err (next (Parser.init [])).2.cursor "Abort after previous error") :=
  ⟨by decide, claim_C2_sticky_error (Parser.init []) (by decide) 3⟩

/-- Claim C4: on the document `\x7b"a": \x7d` the token stream is `Object`,
`String` (the key `a`), then an error token located at byte offset 6 (the
offset of the closing brace, where the value is missing), and every
subsequent call to `next` yields an error token again. -/
theorem claim_C4_object_missing_value :
    (run (Parser.init doc_object_missing_value) 3).1 =
      [Token.tok TokenType.Object ['{'] 0, Token.tok TokenType.String ['a'] 2,
       Token.err 6 "Value must not be empty"] ∧
      ∀ k, (run (Parser.init doc_object_missing_value) (3 + k)).1 =
        [Token.tok TokenType.Object ['{'] 0, Token.tok TokenType.String ['a'] 2,
         Token.err 6 "Value must not be empty"] ++
          List.replicate k (Token.err 6 "Abort after previous error") := by
  constructor
  · decide
  · intro k
    rw [run_add (Parser.init doc_object_missing_value) 3 k]
    have h2 : errorTop (run (Parser.init doc_object_missing_value) 3).2 := by
      unfold errorTop; decide
    rw [run_of_errorTop _ h2 k]
    simp only []
    rw [show (run (Parser.init doc_object_missing_value) 3).1 =
        [Token.tok TokenType.Object ['{'] 0, Token.tok TokenType.String ['a'] 2,
         Token.err 6 "Value must not be empty"] from by decide]
    rw [show (run (Parser.init doc_object_missing_value) 3).2.cursor = 6 from by decide]

/-- Claim C5: on the document `[1,2,3]` the six calls to `next` return
exactly `Array`, `UInt` (spanning `1`), `UInt` (spanning `2`), `UInt`
(spanning `3`), `EndArray`, `Eof`, and every further call returns `Eof`
again. -/
theorem claim_C5_array_tokens :
    (run (Parser.init doc_array) 6).1 =
      [Token.tok TokenType.Array ['['] 0, Token.tok TokenType.UInt ['1'] 1,
       Token.tok TokenType.UInt ['2'] 3, Token.tok TokenType.UInt ['3'] 5,
       Token.tok TokenType.EndArray [']'] 6, Token.tok TokenType.Eof [] 7] ∧
      ∀ k, (run (Parser.init doc_array) (6 + k)).1 =
        [Token.tok TokenType.Array ['['] 0, Token.tok TokenType.UInt ['1'] 1,
         Token.tok TokenType.UInt ['2'] 3, Token.tok TokenType.UInt ['3'] 5,
         Token.tok TokenType.EndArray [']'] 6, Token.tok TokenType.Eof [] 7] ++
          List.replicate k (Token.tok TokenType.Eof [] 7) := by
  constructor
  · decide
  · intro k
    rw [run_add (Parser.init doc_array) 6 k]
    have h2 : (run (Parser.init doc_array) 6).2.stack = [] := by decide
    rw [run_of_empty_stack _ h2 k]
    simp only []
    rw [show (run (Parser.init doc_array) 6).1 =
        [Token.tok TokenType.Array ['['] 0, Token.tok TokenType.UInt ['1'] 1,
         Token.tok TokenType.UInt ['2'] 3, Token.tok TokenType.UInt ['3'] 5,
         Token.tok TokenType.EndArray [']'] 6, Token.tok TokenType.Eof [] 7] from by decide]
    rw [show Token.tok TokenType.Eof
        (substr (run (Parser.init doc_array) 6).2.input (run (Parser.init doc_array) 6).2.cursor
          ((run (Parser.init doc_array) 6).2.input.length - (run (Parser.init doc_array) 6).2.cursor))
        (run (Parser.init doc_array) 6).2.cursor = Token.tok TokenType.Eof [] 7 from by decide]

/-- Claim C6: whenever `next` is called with an empty expectation stack, it
returns an `Eof` token spanning the remaining input (empty once the
document has been fully consumed), leaves the state — in particular the
empty stack — unchanged, and every subsequent call returns that same `Eof`
token again, indefinitely. -/
theorem claim_C6_eof_on_empty_stack (p : Parser) (h : p.stack = []) :
    next p =
      (Token.tok TokenType.Eof (substr p.input p.cursor (p.input.length - p.cursor)) p.cursor,
       p) ∧
      ∀ n, (run p n).1 =
        List.replicate n
          (Token.tok TokenType.Eof (substr p.input p.cursor (p.input.length - p.cursor))
            p.cursor) := by
  refine ⟨next_of_empty_stack p h, fun n => ?_⟩
  rw [run_of_empty_stack p h n]

/-- Witness for claim C6's theorem: the state reached after the 6 steps
that fully consume `[1,2,3]`; its stack is empty, and `next` returns the
`Eof` token over the empty remainder, twice over. -/
theorem claim_C6_witness :
    (run (Parser.init doc_array) 6).2.stack = [] ∧
      next (run (Parser.init doc_array) 6).2 =
        (Token.tok TokenType.Eof [] 7, (run (Parser.init doc_array) 6).2) ∧
      (run (run (Parser.init doc_array) 6).2 2).1 =
        List.replicate 2 (Token.tok TokenType.Eof [] 7) :=
  ⟨by decide,
    (claim_C6_eof_on_empty_stack (run (Parser.init doc_array) 6).2 (by decide)).1,
    (claim_C6_eof_on_empty_stack (run (Parser.init doc_array) 6).2 (by decide)).2 2⟩

/-- Claim C9: on the 4-byte document `"\\"` (a string literal whose content
is a single escaped backslash — valid JSON), `next` returns an error token
"Unterminated string" located at offset 0 rather than a `String` token,
because the closing-quote scan treats the final quote as escaped (its
predecessor byte is a backslash, even though that backslash is itself the
second byte of an escaped-backslash pair). -/
theorem claim_C9_escaped_backslash_unterminated :
    (next (Parser.init doc_escaped_backslash)).1 = Token.err 0 "Unterminated string" ∧
      ¬(next (Parser.init doc_escaped_backslash)).1.type = TokenType.String := by
  decide

lemma getD_eq_get_of_lt (s : List Char) (n : Nat) (d : Char) (h : n < s.length) :
    s.getD n d = s.get ⟨n, h⟩ := by
  simp [List.getD_eq_getElem?_getD, List.getElem?_eq_getElem h]

lemma getD_eq_default_of_le (s : List Char) (n : Nat) (d : Char) (h : s.length ≤ n) :
    s.getD n d = d := by
  simp [List.getD_eq_getElem?_getD, List.getElem?_eq_none h]

lemma lt_length_of_getD_ne (s : List Char) (n : Nat) (d : Char) (h : ¬(s.getD n d = d)) :
    n < s.length := by
  by_contra hge
  exact h (getD_eq_default_of_le s n d (by omega))

/-- Index-based one-step unfolding of `skip_whitespace`, matching the C++
loop body. -/
lemma skip_whitespace_eq (s : List Char) (cursor : Nat) :
    skip_whitespace s cursor =
      if cursor < s.length then
        if is_whitespace (s.getD cursor ' ') then skip_whitespace s (cursor + 1) else cursor
      else cursor := by
  unfold skip_whitespace
  by_cases h : cursor < s.length
  · rw [List.drop_eq_getElem_cons h, if_pos h]
    simp [skip_whitespace_go, List.getD_eq_getElem?_getD, List.getElem?_eq_getElem h]
  · rw [List.drop_eq_nil_of_le (by omega), if_neg h]
    simp [skip_whitespace_go]

/-- Index-based one-step unfolding of `find_first_not_of`. -/
lemma find_first_not_of_eq (s chars : List Char) (pos : Nat) :
    find_first_not_of s chars pos =
      if pos < s.length then
        if chars.contains (s.getD pos ' ') then find_first_not_of s chars (pos + 1)
        else some pos
      else none := by
  unfold find_first_not_of
  by_cases h : pos < s.length
  · rw [List.drop_eq_getElem_cons h, if_pos h]
    simp [find_first_not_of_go, List.getD_eq_getElem?_getD, List.getElem?_eq_getElem h]
  · rw [List.drop_eq_nil_of_le (by omega), if_neg h]
    simp [find_first_not_of_go]

/-- Index-based one-step unfolding of `find_char`. -/
lemma find_char_eq (s : List Char) (ch : Char) (pos : Nat) :
    find_char s ch pos =
      if pos < s.length then
        if s.getD pos ' ' = ch then some pos else find_char s ch (pos + 1)
      else none := by
  unfold find_char
  by_cases h : pos < s.length
  · rw [List.drop_eq_getElem_cons h, if_pos h]
    simp [find_char_go, List.getD_eq_getElem?_getD, List.getElem?_eq_getElem h]
  · rw [List.drop_eq_nil_of_le (by omega), if_neg h]
    simp [find_char_go]

lemma find_first_not_of_go_eq_none_iff (chars l : List Char) (pos : Nat) :
    find_first_not_of_go chars l pos = none ↔ ∀ c ∈ l, chars.contains c = true := by
  induction l generalizing pos with
  | nil => simp [find_first_not_of_go]
  | cons c rest ih =>
    simp only [find_first_not_of_go]
    by_cases h : chars.contains c
    · have hm : c ∈ chars := by simpa using h
      rw [if_pos h, ih (pos + 1)]
      simp [List.forall_mem_cons, hm]
    · have hm : ¬(c ∈ chars) := by simpa using h
      rw [if_neg h]
      simp [List.forall_mem_cons, hm]

/-- `find_first_not_of` from position 0 finds nothing iff every character
of the string is in the set. -/
lemma find_first_not_of_none_iff (v chars : List Char) :
    find_first_not_of v chars 0 = none ↔ ∀ c ∈ v, chars.contains c = true := by
  unfold find_first_not_of
  rw [List.drop_zero]
  exact find_first_not_of_go_eq_none_iff chars v 0

/-- Claim C7: in-place escape decoding of the 6-byte range `é` yields
decoded length 2, the two UTF-8 bytes 0xC3 0xA9 (U+00E9), and the
remaining 4 bytes zero-filled; and in general the UTF-8 encoder emits 1, 2
or 3 bytes for a 16-bit code point according to its magnitude. -/
theorem claim_C7_unicode_escape :
    escape_string ['\\', 'u', '0', '0', 'e', '9'] =
      (2, [Char.ofNat 0xC3, Char.ofNat 0xA9, Char.ofNat 0, Char.ofNat 0, Char.ofNat 0,
           Char.ofNat 0]) ∧
      ∀ cp : Nat, cp < 65536 →
        (encode_utf8 cp).length =
          if cp ≤ 0x7F then 1 else if cp ≤ 0x7FF then 2 else 3 := by
  refine ⟨by decide, fun cp hcp => ?_⟩
  unfold encode_utf8
  split_ifs <;> simp

/-- Witness for claim C7's theorem at the code point 0xE9 = 233. -/
theorem claim_C7_witness :
    (233 : Nat) < 65536 ∧
      (encode_utf8 233).length =
        if (233 : Nat) ≤ 0x7F then 1 else if (233 : Nat) ≤ 0x7FF then 2 else 3 :=
  ⟨by decide, claim_C7_unicode_escape.2 233 (by decide)⟩

/-- Claim C10: the tokenizer's whitespace predicate accepts exactly space,
tab and newline; carriage return is not whitespace; consequently whenever a
value is expected (top of stack `Value`) and the cursor sits on a `'\r'`
byte, `next` returns an error token instead of skipping it and lexing the
value. -/
theorem claim_C10_whitespace_excludes_cr :
    (∀ ch : Char, is_whitespace ch = true ↔ (ch = ' ' ∨ ch = '\t' ∨ ch = '\n')) ∧
      is_whitespace '\r' = false ∧
      ∀ p : Parser, p.stack.head? = some ExpectNext.Value →
        p.input.getD p.cursor ' ' = '\r' → (next p).1.isErr = true := by
  refine ⟨?_, by decide, ?_⟩
  · intro ch
    simp only [is_whitespace, Bool.or_eq_true, decide_eq_true_eq]
    tauto
  · intro p hhead hcr
    have hlt : p.cursor < p.input.length :=
      lt_length_of_getD_ne p.input p.cursor ' ' (by rw [hcr]; decide)
    obtain ⟨rest, hst⟩ : ∃ rest, p.stack = ExpectNext.Value :: rest := by
      cases hs : p.stack with
      | nil => rw [hs] at hhead; simp at hhead
      | cons e r =>
        rw [hs] at hhead
        simp only [List.head?, Option.some.injEq] at hhead
        exact ⟨r, by rw [hhead]⟩
    cases p with
    | mk input cursor stack =>
      simp only at hst hcr hlt
      subst hst
      have hskip : skip_whitespace input cursor = cursor := by
        rw [skip_whitespace_eq, if_pos hlt, hcr]
        simp [is_whitespace]
      have hfind : find_first_not_of input value_chars cursor = some cursor := by
        rw [find_first_not_of_eq, if_pos hlt, hcr]
        rw [if_neg (by decide)]
      simp only [next, on_value, hskip, hfind, hcr]
      rw [if_neg (by omega)]
      rw [if_neg (by decide), if_neg (by decide), if_neg (by decide)]
      simp [substr, error_token, Token.isErr]

/-- Witness for claim C10's theorem at the document `\r1`. -/
theorem claim_C10_witness :
    (Parser.init ['\r', '1']).stack.head? = some ExpectNext.Value ∧
      (Parser.init ['\r', '1']).input.getD (Parser.init ['\r', '1']).cursor ' ' = '\r' ∧
      (next (Parser.init ['\r', '1'])).1.isErr = true :=
  ⟨by decide, by decide,
    claim_C10_whitespace_excludes_cr.2.2 (Parser.init ['\r', '1']) (by decide) (by decide)⟩

/-- Counterexample to claim C3: on the document `1-2` — a numeric-shaped
literal with an internal `-` and no `.`, `e`, `E` or `+` — `next` lexes a
single literal tagged `UInt`, not `Float` as the claim requires for any
literal containing an internal `-`. -/
theorem claim_C3_counterexample :
    (next (Parser.init ['1', '-', '2'])).1 = Token.tok TokenType.UInt ['1', '-', '2'] 0 ∧
      ¬(next (Parser.init ['1', '-', '2'])).1.type = TokenType.Float := by
  decide

/-- Claim C3 (amended): the character set of a (nonempty) numeric literal
alone determines its tag: a literal of digits only is `UInt`; any literal
containing `.`, `e`, `E`, or `+` (in any position) is `Float`; a literal
containing only digits and `-` signs (wherever they occur) is `Int` when it
begins with `-` and `UInt` otherwise — in particular an internal `-` does
not force `Float`. -/
theorem claim_C3_amended (p : Parser) (v : List Char) (hv : ¬(v = [])) :
    ((∀ c ∈ v, c ∈ digit_chars) → (number_token p v).1.type = TokenType.UInt) ∧
      (('.' ∈ v ∨ 'e' ∈ v ∨ 'E' ∈ v ∨ '+' ∈ v) →
        (number_token p v).1.type = TokenType.Float) ∧
      ((∀ c ∈ v, c ∈ digit_chars ∨ c = '-') → ¬(v.headD ' ' = '-') →
        (number_token p v).1.type = TokenType.UInt) ∧
      ((∀ c ∈ v, c ∈ digit_chars ∨ c = '-') → v.headD ' ' = '-' →
        (number_token p v).1.type = TokenType.Int) := by
  have hdig : ∀ c ∈ digit_chars, int_chars.contains c = true := by decide
  have hallint : (∀ c ∈ v, c ∈ digit_chars ∨ c = '-') →
      find_first_not_of v int_chars 0 = none := by
    intro hall
    rw [find_first_not_of_none_iff]
    intro c hc
    rcases hall c hc with hd | rfl
    · exact hdig c hd
    · decide
  have hnodash : ∀ c ∈ digit_chars, ¬(c = '-') := by decide
  have huint : (∀ c ∈ v, c ∈ digit_chars ∨ c = '-') → ¬(v.headD ' ' = '-') →
      (number_token p v).1.type = TokenType.UInt := by
    intro hall hnh
    have hn := hallint hall
    simp only [number_token]
    rw [if_neg (by rw [hn]; decide), if_neg hnh]
    simp [Token.type]
  refine ⟨?_, ?_, huint, ?_⟩
  · intro hall
    refine huint (fun c hc => Or.inl (hall c hc)) ?_
    cases v with
    | nil => exact absurd rfl hv
    | cons c rest =>
      simp only [List.headD_cons]
      exact hnodash c (hall c (List.mem_cons_self c rest))
  · intro hmem
    have hs : (find_first_not_of v int_chars 0).isSome = true := by
      cases hws : find_first_not_of v int_chars 0 with
      | some i => rfl
      | none =>
        exfalso
        rw [find_first_not_of_none_iff] at hws
        rcases hmem with h | h | h | h <;> exact absurd (hws _ h) (by decide)
    simp only [number_token]
    rw [if_pos hs]
    simp [Token.type]
  · intro hall hh
    have hn := hallint hall
    simp only [number_token]
    rw [if_neg (by rw [hn]; decide), if_pos hh]
    simp [Token.type]

/-- Witness for claim C3's amended theorem: the all-digit literal `42` is
tagged `UInt`, the literal `1e5` (containing `e`) is tagged `Float`, and
`-7-` (digits and dashes, leading `-`) is tagged `Int`. -/
theorem claim_C3_witness :
    (¬(['4', '2'] : List Char) = [] ∧
        (number_token (Parser.init ['4', '2']) ['4', '2']).1.type = TokenType.UInt) ∧
      (number_token (Parser.init ['1', 'e', '5']) ['1', 'e', '5']).1.type = TokenType.Float ∧
      (number_token (Parser.init ['-', '7', '-']) ['-', '7', '-']).1.type = TokenType.Int :=
  ⟨⟨by decide, (claim_C3_amended (Parser.init ['4', '2']) ['4', '2'] (by decide)).1 (by decide)⟩,
    (claim_C3_amended (Parser.init ['1', 'e', '5']) ['1', 'e', '5'] (by decide)).2.1
      (by decide),
    (claim_C3_amended (Parser.init ['-', '7', '-']) ['-', '7', '-'] (by decide)).2.2.2
      (by decide) (by decide)⟩

lemma takeWhile_append_of_all (p : Char → Bool) (xs ys : List Char)
    (hall : ∀ x ∈ xs, p x = true) :
    (xs ++ ys).takeWhile p = xs ++ ys.takeWhile p := by
  induction xs with
  | nil => simp
  | cons x xs ih =>
    simp only [List.cons_append, List.takeWhile_cons, hall x (List.mem_cons_self x xs),
      if_true]
    rw [ih (fun y hy => hall y (List.mem_cons_of_mem x hy))]

lemma takeWhile_eq_self_of_all (p : Char → Bool) (xs : List Char)
    (hall : ∀ x ∈ xs, p x = true) : xs.takeWhile p = xs := by
  have h := takeWhile_append_of_all p xs [] hall
  simpa using h

lemma takeWhile_length_le (p : Char → Bool) (l : List Char) :
    (l.takeWhile p).length ≤ l.length := by
  induction l with
  | nil => simp
  | cons a l ih =>
    rw [List.takeWhile_cons]
    split_ifs
    · simpa using ih
    · simp

lemma getD_drop (s : List Char) (pos k : Nat) (d : Char) :
    (s.drop pos).getD k d = s.getD (pos + k) d := by
  by_cases h : pos + k < s.length
  · rw [getD_eq_get_of_lt _ _ _ (by rw [List.length_drop]; omega),
      getD_eq_get_of_lt _ _ _ h]
    simp [List.get_eq_getElem]
  · rw [getD_eq_default_of_le _ _ _ (by rw [List.length_drop]; omega),
      getD_eq_default_of_le _ _ _ (by omega)]

lemma find_char_go_none_iff (ch : Char) (l : List Char) (pos : Nat) :
    find_char_go ch l pos = none ↔ ¬(ch ∈ l) := by
  induction l generalizing pos with
  | nil => simp [find_char_go]
  | cons c rest ih =>
    simp only [find_char_go]
    by_cases h : c = ch
    · rw [if_pos h]
      simp [h]
    · rw [if_neg h]
      rw [ih (pos + 1)]
      have hcc : ¬(ch = c) := fun hh => h hh.symm
      simp [List.mem_cons, hcc]

lemma find_char_go_some_spec (ch : Char) (l : List Char) :
    ∀ pos i, find_char_go ch l pos = some i →
      pos ≤ i ∧ i - pos < l.length ∧ l.getD (i - pos) ' ' = ch ∧
        ¬(ch ∈ l.take (i - pos)) := by
  induction l with
  | nil => intro pos i h; simp [find_char_go] at h
  | cons c rest ih =>
    intro pos i h
    simp only [find_char_go] at h
    by_cases hc : c = ch
    · rw [if_pos hc] at h
      have hip : i = pos := by
        have := Option.some.inj h
        omega
      subst hip
      refine ⟨Nat.le_refl i, by simp, ?_, by simp⟩
      simpa [Nat.sub_self] using hc
    · rw [if_neg hc] at h
      obtain ⟨h1, h2, h3, h4⟩ := ih (pos + 1) i h
      have hk : i - pos = (i - (pos + 1)) + 1 := by omega
      refine ⟨by omega, ?_, ?_, ?_⟩
      · simp only [List.length_cons]
        omega
      · rw [hk, List.getD_cons_succ]
        exact h3
      · rw [hk, List.take_succ_cons]
        simp only [List.mem_cons]
        rintro (heq | hmem)
        · exact hc heq.symm
        · exact h4 hmem

lemma find_char_none_spec (s : List Char) (ch : Char) (pos : Nat)
    (h : find_char s ch pos = none) : ¬(ch ∈ s.drop pos) :=
  (find_char_go_none_iff ch (s.drop pos) pos).mp h

lemma find_char_some_spec (s : List Char) (ch : Char) (pos i : Nat)
    (h : find_char s ch pos = some i) :
    pos ≤ i ∧ i - pos < (s.drop pos).length ∧ (s.drop pos).getD (i - pos) ' ' = ch ∧
      ¬(ch ∈ (s.drop pos).take (i - pos)) :=
  find_char_go_some_spec ch (s.drop pos) pos i h

lemma filter_nl_nil_of_not_mem (l : List Char) (h : ¬('\n' ∈ l)) :
    l.filter (fun c => c = '\n') = [] := by
  rw [List.filter_eq_nil_iff]
  intro a ha
  simp only [decide_eq_true_eq]
  rintro rfl
  exact h ha

/-- Newlines before `i + k` split at `i`. -/
lemma newlines_split (s : List Char) (i m : Nat) (h : i ≤ m) :
    spec_newlines_before s m =
      spec_newlines_before s i +
        (((s.drop i).take (m - i)).filter (fun c => c = '\n')).length := by
  obtain ⟨k, rfl⟩ : ∃ k, m = i + k := ⟨m - i, by omega⟩
  unfold spec_newlines_before
  rw [List.take_add, List.filter_append, List.length_append, Nat.add_sub_cancel_left]

lemma newlines_eq_of_no_nl (s : List Char) (i m : Nat) (h : i ≤ m)
    (hno : ¬('\n' ∈ (s.drop i).take (m - i))) :
    spec_newlines_before s m = spec_newlines_before s i := by
  rw [newlines_split s i m h, filter_nl_nil_of_not_mem _ hno]
  simp

lemma newlines_succ_of_nl (s : List Char) (nl : Nat) (hlt : nl < s.length)
    (hc : s.getD nl ' ' = '\n') :
    spec_newlines_before s (nl + 1) = spec_newlines_before s nl + 1 := by
  rw [newlines_split s nl (nl + 1) (by omega)]
  rw [List.drop_eq_getElem_cons hlt, Nat.add_sub_cancel_left, List.take_succ_cons,
    List.take_zero]
  have hg : s[nl] = '\n' := by
    rw [getD_eq_get_of_lt _ _ _ hlt] at hc
    simpa [List.get_eq_getElem] using hc
  simp [hg]

lemma spec_column_le (s : List Char) (cursor : Nat) : spec_column s cursor ≤ cursor := by
  unfold spec_column
  have h1 := takeWhile_length_le (fun ch => ¬(ch = '\n') : Char → Bool) (s.take cursor).reverse
  rw [List.length_reverse, List.length_take] at h1
  omega

/-- On a cursor whose line starts at `i` (no newline in between, and `i` is
0 or preceded by a newline), the spec column is `cursor - i`. -/
lemma spec_column_eq (s : List Char) (cursor i : Nat) (hile : i ≤ cursor)
    (hcur : cursor ≤ s.length)
    (hno : ¬('\n' ∈ (s.drop i).take (cursor - i)))
    (hstart : i = 0 ∨ (0 < i ∧ s.getD (i - 1) ' ' = '\n')) :
    spec_column s cursor = cursor - i := by
  unfold spec_column
  obtain ⟨k, rfl⟩ : ∃ k, cursor = i + k := ⟨cursor - i, by omega⟩
  rw [Nat.add_sub_cancel_left] at hno ⊢
  rw [List.take_add, List.reverse_append]
  rw [takeWhile_append_of_all _ _ _ ?hall]
  case hall =>
    intro x hx
    rw [List.mem_reverse] at hx
    simp only [decide_eq_true_eq]
    rintro rfl
    exact hno hx
  rw [List.length_append, List.length_reverse, List.length_take, List.length_drop]
  have hseg : min k (s.length - i) = k := by omega
  rw [hseg]
  rcases hstart with rfl | ⟨hipos, hprev⟩
  · simp
  · have hi1 : i - 1 < s.length := by omega
    have htake : s.take i = s.take (i - 1) ++ [s[i - 1]] := by
      conv_lhs => rw [show i = (i - 1) + 1 from by omega]
      rw [List.take_succ, List.getElem?_eq_getElem hi1]
      simp
    rw [htake, List.reverse_append]
    simp only [List.reverse_cons, List.reverse_nil, List.nil_append, List.singleton_append,
      List.takeWhile_cons]
    have hgp : s[i - 1] = '\n' := by
      rw [getD_eq_get_of_lt _ _ _ hi1] at hprev
      simpa [List.get_eq_getElem] using hprev
    rw [hgp]
    simp

/-- Up to the first newline at or after `ls`, taking while non-newline
equals taking `nl - ls` characters. -/
lemma line_text_some (s : List Char) (ls nl : Nat) (hnl : nl < s.length) (hge : ls ≤ nl)
    (hc : s.getD nl ' ' = '\n') (hno : ¬('\n' ∈ (s.drop ls).take (nl - ls))) :
    (s.drop ls).takeWhile (fun ch => ¬(ch = '\n')) = (s.drop ls).take (nl - ls) := by
  have hdecomp : s.drop ls = (s.drop ls).take (nl - ls) ++ s.drop nl := by
    conv_lhs => rw [← List.take_append_drop (nl - ls) (s.drop ls)]
    rw [List.drop_drop, show ls + (nl - ls) = nl from by omega]
  conv_lhs => rw [hdecomp]
  rw [takeWhile_append_of_all _ _ _ ?hall]
  case hall =>
    intro x hx
    simp only [decide_eq_true_eq]
    rintro rfl
    exact hno hx
  rw [List.drop_eq_getElem_cons hnl]
  have hg : s[nl] = '\n' := by
    rw [getD_eq_get_of_lt _ _ _ hnl] at hc
    simpa [List.get_eq_getElem] using hc
  rw [List.takeWhile_cons, hg]
  simp

lemma line_text_none (s : List Char) (ls : Nat) (hno : ¬('\n' ∈ s.drop ls)) :
    (s.drop ls).takeWhile (fun ch => ¬(ch = '\n')) = s.drop ls := by
  apply takeWhile_eq_self_of_all
  intro x hx
  simp only [decide_eq_true_eq]
  rintro rfl
  exact hno hx

/-- At a loop exit of `get_context` (line start `i`, no newline between `i`
and the cursor), the spec quantities agree with the loop state. -/
lemma context_exit_pack (s : List Char) (cursor i : Nat) (hile : i ≤ cursor)
    (hcur : cursor < s.length)
    (hno : ¬('\n' ∈ (s.drop i).take (cursor - i)))
    (hstart : i = 0 ∨ (0 < i ∧ s.getD (i - 1) ' ' = '\n')) :
    spec_line_start s cursor = i ∧
      spec_newlines_before s cursor = spec_newlines_before s i := by
  have hcol := spec_column_eq s cursor i hile (by omega) hno hstart
  refine ⟨?_, newlines_eq_of_no_nl s i cursor hile hno⟩
  unfold spec_line_start
  rw [hcol]
  omega

/-- Invariant proof for the scanning loop of `get_context`: starting a new
line at `i = line_start` with the correct running line number, and the
cursor not on a newline byte, the loop returns the 1-based line number, the
line start, and the position of the newline (or `npos`) ending the cursor's
line. -/
lemma get_context_loop_spec (s : List Char) (cursor : Nat) (hcur : cursor < s.length)
    (hnlc : ¬(s.getD cursor ' ' = '\n')) (hbig : s.length ≤ NPOS) :
    ∀ fuel i ln, i ≤ cursor → s.length < i + fuel →
      ln = 1 + spec_newlines_before s i →
      (i = 0 ∨ (0 < i ∧ s.getD (i - 1) ' ' = '\n')) →
      get_context_loop s cursor fuel i i ln s.length =
        (1 + spec_newlines_before s cursor, spec_line_start s cursor,
         find_nl s (spec_line_start s cursor)) := by
  intro fuel
  induction fuel with
  | zero =>
    intro i ln h1 h2 _ _
    exfalso
    omega
  | succ fuel ih =>
    intro i ln hile hfuel hln hstart
    simp only [get_context_loop]
    rw [if_pos (show i < s.length from by omega)]
    cases hfc : find_char s '\n' i with
    | some nl =>
      obtain ⟨hge, hlen, hgetd, hnomem⟩ := find_char_some_spec s '\n' i nl hfc
      rw [List.length_drop] at hlen
      have hnll : nl < s.length := by omega
      have hnlch : s.getD nl ' ' = '\n' := by
        rw [getD_drop] at hgetd
        rwa [show i + (nl - i) = nl from by omega] at hgetd
      have hfind : find_nl s i = nl := by rw [find_nl, hfc]
      rw [hfind]
      by_cases hcmp : cursor < nl
      · rw [if_pos hcmp]
        have hno : ¬('\n' ∈ (s.drop i).take (cursor - i)) := by
          intro hmem
          apply hnomem
          have heq : (s.drop i).take (cursor - i) =
              ((s.drop i).take (nl - i)).take (cursor - i) := by
            rw [List.take_take, min_eq_left (by omega)]
          rw [heq] at hmem
          exact List.mem_of_mem_take hmem
        obtain ⟨hls, hcount⟩ := context_exit_pack s cursor i hile hcur hno hstart
        rw [hls, hcount, hfind, hln]
      · rw [if_neg hcmp]
        have hnlcur : nl < cursor := by
          rcases Nat.lt_or_ge nl cursor with h | h
          · exact h
          · exfalso
            have heq : nl = cursor := by omega
            rw [heq] at hnlch
            exact hnlc hnlch
        have hln' : ln + 1 = 1 + spec_newlines_before s (nl + 1) := by
          rw [newlines_succ_of_nl s nl hnll hnlch,
            newlines_eq_of_no_nl s i nl hge hnomem]
          omega
        exact ih (nl + 1) (ln + 1) (by omega) (by omega) hln'
          (Or.inr ⟨by omega, by simpa using hnlch⟩)
    | none =>
      have hnomem := find_char_none_spec s '\n' i hfc
      have hfind : find_nl s i = NPOS := by rw [find_nl, hfc]
      rw [hfind, if_pos (show cursor < NPOS from Nat.lt_of_lt_of_le hcur hbig)]
      have hno : ¬('\n' ∈ (s.drop i).take (cursor - i)) := fun hmem =>
        hnomem (List.mem_of_mem_take hmem)
      obtain ⟨hls, hcount⟩ := context_exit_pack s cursor i hile hcur hno hstart
      rw [hls, hcount, hfind, hln]

/-- Counterexample to claim C8: on the document `a\nb`, byte offset 1 (the
newline terminating line 1), `get_context` does not return the data of the
line containing the offset — line 1, 0-based column 1, text `a` — but
instead attributes the offset to line 2 with an underflowed (`size_t`
wrap-around) column `2 ^ 64 - 1` and the text `b`. -/
theorem claim_C8_counterexample :
    get_context ['a', '\n', 'b'] 1 =
      { line_number := 2, column := 2 ^ 64 - 1, line := ['b'] } ∧
      ¬((get_context ['a', '\n', 'b'] 1).line_number = 1 ∧
        (get_context ['a', '\n', 'b'] 1).column = 1 ∧
        (get_context ['a', '\n', 'b'] 1).line = ['a']) := by
  constructor
  · decide
  · decide

/-- Claim C8 (amended): for every document (of `size_t` length) and every
byte offset inside it that is not itself a newline byte, `get_context`
returns the 1-based line number of the line containing the offset, the
0-based column of the offset within that line, and exactly that line's text
excluding its terminating newline.  (At a newline byte itself the result is
wrong, see the counterexample.) -/
theorem claim_C8_amended (s : List Char) (cursor : Nat) (hbig : s.length < 2 ^ 64)
    (hcur : cursor < s.length) (hnlc : ¬(s.getD cursor ' ' = '\n')) :
    get_context s cursor =
      { line_number := 1 + spec_newlines_before s cursor,
        column := spec_column s cursor,
        line := spec_line_text s cursor } := by
  have hbig' : s.length ≤ NPOS := by unfold NPOS; omega
  have hloop := get_context_loop_spec s cursor hcur hnlc hbig' (s.length + 1) 0 1
    (by omega) (by omega) (by simp [spec_newlines_before]) (Or.inl rfl)
  unfold get_context
  rw [hloop]
  simp only [Context.mk.injEq]
  have hcol_le : spec_column s cursor ≤ cursor := spec_column_le s cursor
  have hls_eq : spec_line_start s cursor = cursor - spec_column s cursor := rfl
  refine ⟨trivial, ?_, ?_⟩
  · rw [hls_eq]
    omega
  · unfold spec_line_text
    have hls_le : spec_line_start s cursor ≤ cursor := by
      rw [hls_eq]; omega
    cases hfc : find_char s '\n' (spec_line_start s cursor) with
    | some nl =>
      have hfind : find_nl s (spec_line_start s cursor) = nl := by rw [find_nl, hfc]
      obtain ⟨hge, hlen, hgetd, hnomem⟩ :=
        find_char_some_spec s '\n' (spec_line_start s cursor) nl hfc
      rw [List.length_drop] at hlen
      have hnll : nl < s.length := by omega
      have hnlch : s.getD nl ' ' = '\n' := by
        rw [getD_drop] at hgetd
        rwa [show spec_line_start s cursor + (nl - spec_line_start s cursor) = nl from
          by omega] at hgetd
      rw [hfind, line_text_some s (spec_line_start s cursor) nl hnll hge hnlch hnomem]
      rfl
    | none =>
      have hfind : find_nl s (spec_line_start s cursor) = NPOS := by rw [find_nl, hfc]
      have hnomem := find_char_none_spec s '\n' (spec_line_start s cursor) hfc
      rw [hfind, line_text_none s (spec_line_start s cursor) hnomem]
      unfold substr
      apply List.take_of_length_le
      rw [List.length_drop]
      have : NPOS = 2 ^ 64 - 1 := rfl
      omega

/-- Witness for claim C8's amended theorem on the 3-line document
`a\nb\ncc`, offset 5 (inside line 3): line number 3, column 1, line text
`cc`. -/
theorem claim_C8_witness :
    ((['a', '\n', 'b', '\n', 'c', 'c'] : List Char).length < 2 ^ 64 ∧
        5 < (['a', '\n', 'b', '\n', 'c', 'c'] : List Char).length ∧
        ¬((['a', '\n', 'b', '\n', 'c', 'c'] : List Char).getD 5 ' ' = '\n')) ∧
      get_context ['a', '\n', 'b', '\n', 'c', 'c'] 5 =
        { line_number := 1 + spec_newlines_before ['a', '\n', 'b', '\n', 'c', 'c'] 5,
          column := spec_column ['a', '\n', 'b', '\n', 'c', 'c'] 5,
          line := spec_line_text ['a', '\n', 'b', '\n', 'c', 'c'] 5 } ∧
      (1 + spec_newlines_before ['a', '\n', 'b', '\n', 'c', 'c'] 5 = 3 ∧
        spec_column ['a', '\n', 'b', '\n', 'c', 'c'] 5 = 1 ∧
        spec_line_text ['a', '\n', 'b', '\n', 'c', 'c'] 5 = ['c', 'c']) :=
  ⟨⟨by decide, by decide, by decide⟩,
    claim_C8_amended ['a', '\n', 'b', '\n', 'c', 'c'] 5 (by decide) (by decide) (by decide),
    by decide⟩

end Minijson2
